import Mathlib

/-!
Verification of the climg image-to-Braille pipeline (src/main.rs).

The source is shallowly embedded as follows.

* A grayscale image (`ImageBuffer<Luma<u8>, Vec<u8>>`) is a `Raster`:
  a width, a height, and an intensity function.  Intensities are 8-bit
  (0..=255); theorems that need this carry it as a hypothesis.
* `u16`/`u32` machine arithmetic is modelled on `Nat` with explicit
  `% 2 ^ 16` where the Rust code can wrap (`terminal_height -= 2`,
  `terminal_height *= 4`, `terminal_width *= 2` are `u16` operations).
* The `f32`/`f64` arithmetic of `fit_image` and `otsu_threshold` is
  modelled by exact rational arithmetic (`ℚ`), with `round` being
  round-half-up, which agrees with Rust `f32::round`
  (half-away-from-zero) on the nonnegative values that occur here.
  Every concrete input used in a counterexample or witness below makes
  all floating-point operations of the code exact (small integers and
  dyadic values), so on those inputs the model computes exactly what
  the compiled code computes.  In `otsu_threshold`, the divisions of
  the variance computation are never reached by the degenerate-input
  theorems (the loop exits first), and the tie-break/maximum theorems
  depend only on the ordered-field structure shared by `f64` and `ℚ`.
* Fallible operations are modelled with `Option`: `char::from_u32`
  returns an `Option`, the terminal-size query result is an
  `Option (Nat × Nat)`, and an out-of-bounds `get_pixel` (which would
  panic in Rust) is `none` in `get_pixel_opt`.
-/

set_option maxHeartbeats 1000000
set_option maxRecDepth 40000

/-- A grayscale raster: width, height and per-pixel 8-bit intensity.
`pix x y` is the luminance sample at column `x`, row `y`; the code only
reads coordinates with `x < width` and `y < height`. -/
structure Raster where
  width : Nat
  height : Nat
  pix : Nat → Nat → Nat

/-- The 256-bucket intensity histogram built at src/main.rs:17-20:
bucket `i` counts the pixels whose intensity is `i`. -/
def histogram (r : Raster) (i : Nat) : Nat :=
  ((Finset.range r.width ×ˢ Finset.range r.height).filter
    (fun p => r.pix p.1 p.2 = i)).card

/-- `sum_total` of src/main.rs:27-30: `Σ i · hist[i]` over all 256 buckets,
accumulated in floating point in the code, exactly in `ℚ` here. -/
def sumTotalQ (hist : Nat → Nat) : ℚ :=
  ∑ i ∈ Finset.range 256, (i : ℚ) * (hist i : ℚ)

/-- The between-class variance expression computed at src/main.rs:49-52
from the running sums `sum_b` (here `sumB2`) and `w_b` (here `wB2`):
`w_b · w_f · (m_b − m_f)²` with `w_f = total − w_b`, `m_b = sum_b/w_b`,
`m_f = (sum_total − sum_b)/w_f`. -/
def varExpr (sumTotal : ℚ) (total : Nat) (sumB2 wB2 : ℚ) : ℚ :=
  wB2 * ((total : ℚ) - wB2) *
    (sumB2 / wB2 - (sumTotal - sumB2) / ((total : ℚ) - wB2)) *
    (sumB2 / wB2 - (sumTotal - sumB2) / ((total : ℚ) - wB2))

/-- The candidate loop of src/main.rs:38-57.  `fuel` counts the remaining
buckets (the code iterates `t` from 0 to 255, so the initial call uses
`fuel = 256`, `t = 0`); `sumB`, `wB`, `maxVar` and `thr` are the running
state `sum_b`, `w_b`, `max_var`, `threshold`.  `continue` on `w_b == 0`,
`break` on `w_f == 0`, and the strict `>` comparison against the running
maximum are reproduced exactly. -/
def otsuGo (hist : Nat → Nat) (total : Nat) (sumTotal : ℚ) :
    Nat → Nat → ℚ → ℚ → ℚ → Nat → Nat
  | 0, _, _, _, _, thr => thr
  | fuel + 1, t, sumB, wB, maxVar, thr =>
    let wB2 := wB + (hist t : ℚ)
    if wB2 = 0 then
      otsuGo hist total sumTotal fuel (t + 1) sumB wB2 maxVar thr
    else
      let wF := (total : ℚ) - wB2
      if wF = 0 then thr
      else
        let sumB2 := sumB + (t : ℚ) * (hist t : ℚ)
        let varBetween := varExpr sumTotal total sumB2 wB2
        if maxVar < varBetween then
          otsuGo hist total sumTotal fuel (t + 1) sumB2 wB2 varBetween t
        else
          otsuGo hist total sumTotal fuel (t + 1) sumB2 wB2 maxVar thr

/-- `otsu_threshold` of src/main.rs:16-60: returns 128 for a raster with
zero pixels (src/main.rs:22-25), otherwise runs the candidate loop with
`sum_b = 0`, `w_b = 0`, `max_var = -1`, `threshold = 0`. -/
def otsu_threshold (r : Raster) : Nat :=
  if r.width * r.height = 0 then 128
  else
    otsuGo (histogram r) (r.width * r.height)
      (sumTotalQ (histogram r)) 256 0 0 0 (-1) 0

/-- Bounds-checked pixel access.  The Rust `ImageBuffer::get_pixel`
panics out of bounds; that failure is modelled with `none`. -/
def get_pixel_opt (r : Raster) (x y : Nat) : Option Nat :=
  if x < r.width ∧ y < r.height then some (r.pix x y) else none

/-- `bit_if_on` of src/main.rs:62-70: 0 for out-of-range coordinates,
otherwise 1 when the sample is on (`v >= t`, or `v < t` when
`invert`). -/
def bit_if_on (r : Raster) (x y t : Nat) (invert : Bool) : Nat :=
  if r.width ≤ x ∨ r.height ≤ y then 0
  else if invert then (if r.pix x y < t then 1 else 0)
  else (if t ≤ r.pix x y then 1 else 0)

/-- Panic-aware variant of `bit_if_on`: the pixel read goes through
`get_pixel_opt`, so a read past the raster edge would be `none`. -/
def bit_if_on_opt (r : Raster) (x y t : Nat) (invert : Bool) : Option Nat :=
  if r.width ≤ x ∨ r.height ≤ y then some 0
  else
    (get_pixel_opt r x y).map
      (fun v => if invert then (if v < t then 1 else 0) else (if t ≤ v then 1 else 0))

/-- The 8-bit mask packed at src/main.rs:125-134 for the 2-wide × 4-tall
block anchored at `(x, y)`, with the bit order of the code:
bit0=(0,0), bit1=(0,1), bit2=(0,2), bit3=(1,0), bit4=(1,1), bit5=(1,2),
bit6=(0,3), bit7=(1,3). -/
def blockBits (r : Raster) (t : Nat) (invert : Bool) (x y : Nat) : Nat :=
  bit_if_on r x y t invert
  ||| bit_if_on r x (y + 1) t invert <<< 1
  ||| bit_if_on r x (y + 2) t invert <<< 2
  ||| bit_if_on r (x + 1) y t invert <<< 3
  ||| bit_if_on r (x + 1) (y + 1) t invert <<< 4
  ||| bit_if_on r (x + 1) (y + 2) t invert <<< 5
  ||| bit_if_on r x (y + 3) t invert <<< 6
  ||| bit_if_on r (x + 1) (y + 3) t invert <<< 7

/-- `char::from_u32`: `some` exactly on Unicode scalar values (below the
surrogate range or between it and 0x110000); codepoints are `Nat`. -/
def char_from_u32 (n : Nat) : Option Nat :=
  if n < 0xd800 ∨ (0xe000 ≤ n ∧ n < 0x110000) then some n else none

/-- The glyph choice of src/main.rs:136:
`char::from_u32(0x2800 + bits).unwrap_or('\u{2800}')`. -/
def brailleChar (bits : Nat) : Nat :=
  (char_from_u32 (0x2800 + bits)).getD 0x2800

/-- One output line of src/main.rs:124-138: the inner loop over
`x in (0..w).step_by(2)` visits `x = 2i` for `i < ⌈w/2⌉`. -/
def renderLine (r : Raster) (t : Nat) (invert : Bool) (y : Nat) : List Nat :=
  (List.range ((r.width + 1) / 2)).map
    (fun i => brailleChar (blockBits r t invert (2 * i) y))

/-- The output of src/main.rs:122-140: the outer loop over
`y in (0..h).step_by(4)` emits one line per `y = 4j` for `j < ⌈h/4⌉`. -/
def renderLines (r : Raster) (t : Nat) (invert : Bool) : List (List Nat) :=
  (List.range ((r.height + 3) / 4)).map
    (fun j => renderLine r t invert (4 * j))

/-- Indicator that the sub-pixel coordinate `(x, y)` is in bounds. -/
def inb (r : Raster) (x y : Nat) : Nat :=
  if x < r.width ∧ y < r.height then 1 else 0

/-- The mask a block at `(x, y)` would produce if every in-bounds
sub-pixel were on: bit `k` is set iff sub-pixel `k` is inside the
raster, in the bit order of `blockBits`. -/
def boundsMask (r : Raster) (x y : Nat) : Nat :=
  inb r x y + 2 * inb r x (y + 1) + 4 * inb r x (y + 2) + 8 * inb r (x + 1) y
  + 16 * inb r (x + 1) (y + 1) + 32 * inb r (x + 1) (y + 2)
  + 64 * inb r x (y + 3) + 128 * inb r (x + 1) (y + 3)

/-- The bit position assigned by src/main.rs:127-134 to the sub-pixel at
offset `(x, y)` of a block. -/
def bitIndex (x y : Nat) : Nat :=
  if x = 0 then (if y = 3 then 6 else y) else (if y = 3 then 7 else 3 + y)

/-- A 2×4 raster realizing an arbitrary 8-bit mask `m` under threshold
128 without inversion: sub-pixel `(x, y)` is 255 when bit
`bitIndex x y` of `m` is set, else 0. -/
def maskRaster (m : Nat) : Raster :=
  ⟨2, 4, fun x y => if m.testBit (bitIndex x y) then 255 else 0⟩

/-- The 4-wide, 8-tall solid black raster of the end-to-end example. -/
def black4x8 : Raster := ⟨4, 8, fun _ _ => 0⟩

/-- A two-pixel raster with distinct intensities 0 and 200, giving the
Otsu loop a valid split candidate. -/
def twoToneRaster : Raster := ⟨2, 1, fun x _ => if x = 0 then 0 else 200⟩

/-- The `u16` computation `terminal_height -= 2` at src/main.rs:77,
written as wrapping subtraction modulo `2 ^ 16` (release semantics;
a debug build would panic on underflow instead). -/
def usableHeightU16 (rows : Nat) : Nat := (rows + 2 ^ 16 - 2) % 2 ^ 16

/-- The target-dimension computation of `fit_image`, src/main.rs:72-109,
given the source dimensions `W × H` and the terminal geometry
`cols × rows` (the result of the terminal-size query).  Returns the
`(target_width, target_height)` pair handed to the external resampler.
`f32` arithmetic is modelled exactly in `ℚ`; `round` is round-half-up,
matching `f32::round` on nonnegative values. -/
def fit_image (W H cols rows : Nat) : Nat × Nat :=
  let th : Nat := (usableHeightU16 rows * 4) % 2 ^ 16
  let tw : Nat := (cols * 2) % 2 ^ 16
  let aspect : ℚ := (H : ℚ) / (W : ℚ)
  if aspect < 1 then
    let targetH : Nat := (round ((tw : ℚ) * aspect)).toNat
    if th < targetH then
      let aspect2 : ℚ := (th : ℚ) / (targetH : ℚ)
      ((round ((tw : ℚ) * aspect2)).toNat, (round ((targetH : ℚ) * aspect2)).toNat)
    else (tw, targetH)
  else if 1 < aspect then
    let targetW : Nat := (round ((th : ℚ) * aspect)).toNat
    if tw < targetW then
      let aspect2 : ℚ := (tw : ℚ) / (targetW : ℚ)
      ((round ((targetW : ℚ) * aspect2)).toNat, (round ((th : ℚ) * aspect2)).toNat)
    else (targetW, th)
  else (min th tw, min th tw)

/-- `fit_image` together with the terminal query of src/main.rs:76:
`get_terminal_size().unwrap_or((100, 200))`, the query result being
`none` on failure. -/
def fit_image_q (W H : Nat) (q : Option (Nat × Nat)) : Nat × Nat :=
  fit_image W H (q.getD (100, 200)).1 (q.getD (100, 200)).2

/-- Cumulative histogram count strictly below bucket `t`:
the value of `w_b` after the loop body has processed buckets
`0, …, t − 1`. -/
def wPre (hist : Nat → Nat) (t : Nat) : Nat := ∑ i ∈ Finset.range t, hist i

/-- Cumulative weighted histogram sum strictly below bucket `t`:
the value of `sum_b` after buckets `0, …, t − 1`. -/
def sPre (hist : Nat → Nat) (t : Nat) : Nat := ∑ i ∈ Finset.range t, i * hist i

/-- A threshold candidate `t` that the loop actually evaluates:
some pixel lies at or below `t` and some pixel lies above `t`
(`w_b ≠ 0` and `w_f ≠ 0` at iteration `t`). -/
abbrev validCand (hist : Nat → Nat) (total t : Nat) : Prop :=
  t < 256 ∧ 0 < wPre hist (t + 1) ∧ wPre hist (t + 1) < total

/-- The between-class variance the loop evaluates at candidate `t`,
expressed through the cumulative sums. -/
def varFn (hist : Nat → Nat) (total t : Nat) : ℚ :=
  varExpr (sumTotalQ hist) total (sPre hist (t + 1) : ℚ) (wPre hist (t + 1) : ℚ)

/-- One step of the cumulative count. -/
lemma wPre_succ (hist : Nat → Nat) (t : Nat) :
    wPre hist (t + 1) = wPre hist t + hist t :=
  Finset.sum_range_succ hist t

/-- One step of the cumulative weighted sum. -/
lemma sPre_succ (hist : Nat → Nat) (t : Nat) :
    sPre hist (t + 1) = sPre hist t + t * hist t :=
  Finset.sum_range_succ (fun i => i * hist i) t

/-- The cumulative count is monotone. -/
lemma wPre_mono (hist : Nat → Nat) {a b : Nat} (h : a ≤ b) :
    wPre hist a ≤ wPre hist b :=
  Finset.sum_le_sum_of_subset (Finset.range_subset.mpr h)

/-- Evaluation of the thresholder on the solid-black 4×8 raster: the
histogram is concentrated at bucket 0, so the first iteration already
has `w_f = 32 − 32 = 0` and the loop breaks with the initial
threshold 0. -/
lemma otsu_black4x8 : otsu_threshold black4x8 = 0 := by
  unfold otsu_threshold
  rw [show black4x8.width * black4x8.height = 32 from rfl]
  rw [if_neg (by norm_num)]
  rw [show (256 : Nat) = 255 + 1 from rfl]
  rw [otsuGo]
  rw [show histogram black4x8 0 = 32 from by decide]
  norm_num

/-- Claim C8: a raster with zero pixels makes `otsu_threshold` return the
fixed default 128 on the early path of src/main.rs:22-25, before any
division is performed. -/
theorem otsu_zero_pixels_default (r : Raster) (h : r.width * r.height = 0) :
    otsu_threshold r = 128 := by
  unfold otsu_threshold
  rw [if_pos h]

/-- Witness for `otsu_zero_pixels_default` at a concrete 0×5 raster. -/
theorem otsu_zero_pixels_default_witness :
    (Raster.mk 0 5 (fun _ _ => 7)).width * (Raster.mk 0 5 (fun _ _ => 7)).height = 0 ∧
    otsu_threshold (Raster.mk 0 5 (fun _ _ => 7)) = 128 :=
  ⟨rfl, otsu_zero_pixels_default (Raster.mk 0 5 (fun _ _ => 7)) rfl⟩

/-- Claim C9: when the terminal-size query fails (`none`), the pipeline
proceeds with the default geometry (100, 200) and the fitted output is
exactly the one computed for a terminal reporting (100, 200). -/
theorem terminal_fallback_default :
    ∀ W H : Nat,
      fit_image_q W H none = fit_image W H 100 200 ∧
      fit_image_q W H none = fit_image_q W H (some (100, 200)) :=
  fun _ _ => ⟨rfl, rfl⟩

/-- Claim C10: the `u16` subtraction `terminal_height -= 2` at
src/main.rs:77 is applied unconditionally; it agrees with the intended
`rows − 2` exactly when `2 ≤ rows < 2 ^ 16`, and for the reported row
counts 1 and 0 it wraps modulo `2 ^ 16` to 65535 and 65534 (release
build; a debug build panics there).  No clamp intervenes: `fit_image`
feeds `usableHeightU16 rows` straight into the grid height. -/
theorem usable_height_underflow :
    (∀ rows : Nat, 2 ≤ rows → rows < 2 ^ 16 → usableHeightU16 rows = rows - 2) ∧
    usableHeightU16 1 = 2 ^ 16 - 1 ∧ usableHeightU16 0 = 2 ^ 16 - 2 := by
  refine ⟨fun rows h2 hlt => ?_, by decide, by decide⟩
  unfold usableHeightU16
  omega

/-- Witness for `usable_height_underflow` at `rows = 10`. -/
theorem usable_height_underflow_witness :
    2 ≤ 10 ∧ 10 < 2 ^ 16 ∧ usableHeightU16 10 = 10 - 2 :=
  ⟨by decide, by decide, usable_height_underflow.1 10 (by decide) (by decide)⟩

/-- Claim C1 (refuted; code bug): for the 1×2 source image (aspect
`H/W = 2 > 1`) and terminal geometry 4 columns × 3 rows, the usable grid
is 8×4 and the fitter outputs `(w, h) = (8, 4)`: the `aspect > 1` branch
at src/main.rs:92 computes `target_width = round(target_height × aspect)`,
multiplying by the aspect where the symmetric construction requires
dividing, so `w/h = 2 = H/W` instead of `W/H = 1/2` and the difference
`w/h − W/H = 3/2` exceeds any rounding error.  Every `f32` operation of
the code is exact on this input, so the rational model coincides with
the compiled code here. -/
theorem fit_image_tall_aspect_inverted :
    fit_image 1 2 4 3 = (8, 4) ∧ (8 : ℚ) / 4 - 1 / 2 = 3 / 2 := by
  constructor
  · unfold fit_image
    rw [show usableHeightU16 3 = 1 from by decide]
    norm_num [round_eq]
    decide
  · norm_num

/-- Claim C2 (counterexample): on the 4-wide, 8-tall solid-black raster
with `invert = false`, the computed threshold is not 128 (the 128
fallback applies only to empty rasters; here the loop breaks at `t = 0`
leaving the initial 0), and the output is not a single line of two
U+2800 glyphs. -/
theorem black4x8_not_claimed_output :
    otsu_threshold black4x8 ≠ 128 ∧
    renderLines black4x8 (otsu_threshold black4x8) false ≠ [[0x2800, 0x2800]] := by
  rw [otsu_black4x8]
  exact ⟨by decide, by decide⟩

/-- Claim C2 (amended): on the 4-wide, 8-tall solid-black raster the
pipeline computes threshold 0 (the uniform-image degenerate result),
`invert = false` classifies every sample on (`0 ≥ 0`), and the
rasterizer emits two lines of two U+28FF glyphs each. -/
theorem black4x8_output :
    otsu_threshold black4x8 = 0 ∧
    renderLines black4x8 (otsu_threshold black4x8) false =
      [[0x28ff, 0x28ff], [0x28ff, 0x28ff]] := by
  rw [otsu_black4x8]
  exact ⟨rfl, by decide⟩

/-- Each sample contributes at most one bit. -/
lemma bit_if_on_le_one (r : Raster) (x y t : Nat) (invert : Bool) :
    bit_if_on r x y t invert ≤ 1 := by
  unfold bit_if_on
  split_ifs <;> omega

/-- An out-of-range sample contributes 0 regardless of the invert flag
(the early return at src/main.rs:64-66). -/
lemma bit_if_on_oob (r : Raster) (x y t : Nat) (invert : Bool)
    (h : r.width ≤ x ∨ r.height ≤ y) :
    bit_if_on r x y t invert = 0 := by
  unfold bit_if_on
  rw [if_pos h]

/-- Or-shift accumulation of eight single-bit values is the weighted sum
with weights 1, 2, 4, …, 128. -/
lemma lor_shift_sum (b0 b1 b2 b3 b4 b5 b6 b7 : Nat)
    (h0 : b0 ≤ 1) (h1 : b1 ≤ 1) (h2 : b2 ≤ 1) (h3 : b3 ≤ 1)
    (h4 : b4 ≤ 1) (h5 : b5 ≤ 1) (h6 : b6 ≤ 1) (h7 : b7 ≤ 1) :
    b0 ||| b1 <<< 1 ||| b2 <<< 2 ||| b3 <<< 3 ||| b4 <<< 4 ||| b5 <<< 5
      ||| b6 <<< 6 ||| b7 <<< 7
      = b0 + 2 * b1 + 4 * b2 + 8 * b3 + 16 * b4 + 32 * b5 + 64 * b6 + 128 * b7 := by
  interval_cases b0 <;> interval_cases b1 <;> interval_cases b2 <;> interval_cases b3 <;>
    interval_cases b4 <;> interval_cases b5 <;> interval_cases b6 <;>
    interval_cases b7 <;> rfl

/-- The block mask as a weighted sum of the eight sample bits. -/
lemma blockBits_eq_sum (r : Raster) (t : Nat) (invert : Bool) (x y : Nat) :
    blockBits r t invert x y =
      bit_if_on r x y t invert + 2 * bit_if_on r x (y + 1) t invert
      + 4 * bit_if_on r x (y + 2) t invert + 8 * bit_if_on r (x + 1) y t invert
      + 16 * bit_if_on r (x + 1) (y + 1) t invert
      + 32 * bit_if_on r (x + 1) (y + 2) t invert
      + 64 * bit_if_on r x (y + 3) t invert
      + 128 * bit_if_on r (x + 1) (y + 3) t invert := by
  unfold blockBits
  exact lor_shift_sum _ _ _ _ _ _ _ _
    (bit_if_on_le_one r x y t invert) (bit_if_on_le_one r x (y + 1) t invert)
    (bit_if_on_le_one r x (y + 2) t invert) (bit_if_on_le_one r (x + 1) y t invert)
    (bit_if_on_le_one r (x + 1) (y + 1) t invert)
    (bit_if_on_le_one r (x + 1) (y + 2) t invert)
    (bit_if_on_le_one r x (y + 3) t invert)
    (bit_if_on_le_one r (x + 1) (y + 3) t invert)

/-- The block mask fits in eight bits. -/
lemma blockBits_le_255 (r : Raster) (t : Nat) (invert : Bool) (x y : Nat) :
    blockBits r t invert x y ≤ 255 := by
  rw [blockBits_eq_sum]
  have h0 := bit_if_on_le_one r x y t invert
  have h1 := bit_if_on_le_one r x (y + 1) t invert
  have h2 := bit_if_on_le_one r x (y + 2) t invert
  have h3 := bit_if_on_le_one r (x + 1) y t invert
  have h4 := bit_if_on_le_one r (x + 1) (y + 1) t invert
  have h5 := bit_if_on_le_one r (x + 1) (y + 2) t invert
  have h6 := bit_if_on_le_one r x (y + 3) t invert
  have h7 := bit_if_on_le_one r (x + 1) (y + 3) t invert
  omega

/-- The two invert settings of one in-bounds sample contribute exactly
one bit between them; out of bounds they contribute none. -/
lemma bit_pair (r : Raster) (x y t : Nat) :
    bit_if_on r x y t true + bit_if_on r x y t false = inb r x y := by
  unfold bit_if_on inb
  simp only [eq_self_iff_true, Bool.false_eq_true, if_true, if_false]
  split_ifs <;> omega

/-- Claim C5: every emitted character is `0x2800 + mask` for the block's
8-bit mask in the fixed bit order of src/main.rs:127-134, hence lies in
the Braille Patterns range U+2800–U+28FF; and every one of the 256
masks is realized by some 2×4 block (via `maskRaster`), the codepoint
then being exactly `0x2800 + mask`. -/
theorem braille_codepoint_range :
    (∀ (r : Raster) (t : Nat) (invert : Bool) (x y : Nat),
        brailleChar (blockBits r t invert x y) = 0x2800 + blockBits r t invert x y ∧
        0x2800 ≤ brailleChar (blockBits r t invert x y) ∧
        brailleChar (blockBits r t invert x y) ≤ 0x28ff) ∧
    (∀ m : Nat, m < 256 → blockBits (maskRaster m) 128 false 0 0 = m) := by
  constructor
  · intro r t invert x y
    have hb := blockBits_le_255 r t invert x y
    have he : brailleChar (blockBits r t invert x y) = 0x2800 + blockBits r t invert x y := by
      unfold brailleChar char_from_u32
      rw [if_pos (Or.inl (by omega))]
      rfl
    exact ⟨he, by rw [he]; omega, by rw [he]; omega⟩
  · decide

/-- Witness for `braille_codepoint_range` at mask 5 and at the
solid-black raster's first block. -/
theorem braille_codepoint_range_witness :
    (5 < 256 ∧ blockBits (maskRaster 5) 128 false 0 0 = 5) ∧
    brailleChar (blockBits black4x8 0 false 0 0) = 0x2800 + blockBits black4x8 0 false 0 0 :=
  ⟨⟨by decide, braille_codepoint_range.2 5 (by decide)⟩,
    (braille_codepoint_range.1 black4x8 0 false 0 0).1⟩

/-- Claim C6: sampling never reads past the raster edge — the
panic-aware sampler always returns a value (`some`), and any sample
with `x ≥ width` or `y ≥ height` contributes the bit 0. -/
theorem oob_sample_contributes_zero :
    (∀ (r : Raster) (x y t : Nat) (invert : Bool),
        bit_if_on_opt r x y t invert = some (bit_if_on r x y t invert)) ∧
    (∀ (r : Raster) (x y t : Nat) (invert : Bool),
        r.width ≤ x ∨ r.height ≤ y → bit_if_on r x y t invert = 0) := by
  constructor
  · intro r x y t invert
    unfold bit_if_on_opt bit_if_on get_pixel_opt
    by_cases h : r.width ≤ x ∨ r.height ≤ y
    · rw [if_pos h, if_pos h]
    · rw [if_neg h, if_neg h, if_pos (show x < r.width ∧ y < r.height by omega)]
      rfl
  · exact fun r x y t invert h => bit_if_on_oob r x y t invert h

/-- Witness for `oob_sample_contributes_zero` at a coordinate beyond
the solid-black raster's width. -/
theorem oob_sample_contributes_zero_witness :
    (black4x8.width ≤ 9 ∨ black4x8.height ≤ 0) ∧ bit_if_on black4x8 9 0 128 false = 0 :=
  ⟨Or.inl (by decide),
    oob_sample_contributes_zero.2 black4x8 9 0 128 false (Or.inl (by decide))⟩

/-- Claim C7: an in-bounds sample is on iff (`invert = false` and
`value ≥ t`) or (`invert = true` and `value < t`); consequently the two
invert settings produce complementary masks over exactly the in-bounds
sub-pixels (their sum is `boundsMask`), while out-of-range sub-pixel
bits stay 0 under both settings. -/
theorem invert_complements_in_bounds (r : Raster) (t x y : Nat) :
    (∀ (x2 y2 t2 : Nat) (invert : Bool), x2 < r.width → y2 < r.height →
        (bit_if_on r x2 y2 t2 invert = 1 ↔
          ((invert = false ∧ t2 ≤ r.pix x2 y2) ∨ (invert = true ∧ r.pix x2 y2 < t2)))) ∧
    blockBits r t true x y + blockBits r t false x y = boundsMask r x y ∧
    (∀ (x2 y2 t2 : Nat) (invert : Bool), r.width ≤ x2 ∨ r.height ≤ y2 →
        bit_if_on r x2 y2 t2 invert = 0) := by
  refine ⟨?_, ?_, fun x2 y2 t2 invert h => bit_if_on_oob r x2 y2 t2 invert h⟩
  · intro x2 y2 t2 invert hx hy
    unfold bit_if_on
    rw [if_neg (by omega)]
    cases invert
    · rw [if_neg (by simp : ¬ ((false : Bool) = true))]
      split_ifs with hc <;> simp [hc]
    · rw [if_pos rfl]
      split_ifs with hc <;> simp [hc]
  · rw [blockBits_eq_sum, blockBits_eq_sum]
    unfold boundsMask
    have p0 := bit_pair r x y t
    have p1 := bit_pair r x (y + 1) t
    have p2 := bit_pair r x (y + 2) t
    have p3 := bit_pair r (x + 1) y t
    have p4 := bit_pair r (x + 1) (y + 1) t
    have p5 := bit_pair r (x + 1) (y + 2) t
    have p6 := bit_pair r x (y + 3) t
    have p7 := bit_pair r (x + 1) (y + 3) t
    omega

/-- Witness for `invert_complements_in_bounds` at the solid-black
raster, threshold 5, sample (0, 0). -/
theorem invert_complements_in_bounds_witness :
    (0 < black4x8.width ∧ 0 < black4x8.height) ∧
    (bit_if_on black4x8 0 0 5 true = 1 ↔
      ((true = false ∧ 5 ≤ black4x8.pix 0 0) ∨ (true = true ∧ black4x8.pix 0 0 < 5))) :=
  ⟨⟨by decide, by decide⟩,
    (invert_complements_in_bounds black4x8 5 0 0).1 0 0 5 true (by decide) (by decide)⟩

/-- On a uniform raster every histogram bucket except `v` is empty, and
bucket `v` holds the whole pixel count. -/
lemma histogram_uniform (r : Raster) (v : Nat)
    (huni : ∀ x y, x < r.width → y < r.height → r.pix x y = v) (i : Nat) :
    histogram r i = if i = v then r.width * r.height else 0 := by
  unfold histogram
  by_cases hiv : i = v
  · subst hiv
    rw [if_pos rfl, Finset.filter_true_of_mem, Finset.card_product, Finset.card_range,
      Finset.card_range]
    intro p hp
    rw [Finset.mem_product, Finset.mem_range, Finset.mem_range] at hp
    exact huni p.1 p.2 hp.1 hp.2
  · rw [if_neg hiv, Finset.filter_false_of_mem, Finset.card_empty]
    intro p hp
    rw [Finset.mem_product, Finset.mem_range, Finset.mem_range] at hp
    rw [huni p.1 p.2 hp.1 hp.2]
    exact fun hc => hiv hc.symm

/-- On a uniform histogram concentrated at bucket `v`, the loop skips
every bucket below `v` (there `w_b` stays 0) and breaks at bucket `v`
(there `w_f` becomes 0), returning the initial threshold 0. -/
lemma otsuGo_uniform (total v : Nat) (hv : v < 256) (htot : 0 < total) (s : ℚ) :
    ∀ fuel t (sumB wB maxVar : ℚ), t + fuel = 256 → t ≤ v → wB = 0 →
      otsuGo (fun i => if i = v then total else 0) total s fuel t sumB wB maxVar 0 = 0 := by
  intro fuel
  induction fuel with
  | zero =>
    intro t sumB wB maxVar hft htv hwB
    exfalso
    omega
  | succ fuel ih =>
    intro t sumB wB maxVar hft htv hwB
    simp only [otsuGo]
    by_cases htv2 : t = v
    · rw [show (if t = v then total else 0) = total from if_pos htv2, hwB, zero_add]
      rw [if_neg (show ¬ ((total : Nat) : ℚ) = 0 from Nat.cast_ne_zero.mpr (by omega))]
      rw [if_pos (show (total : ℚ) - (total : Nat) = 0 from sub_self _)]
    · rw [show (if t = v then total else 0) = 0 from if_neg htv2]
      rw [if_pos (show wB + ((0 : Nat) : ℚ) = 0 from by rw [hwB]; simp)]
      exact ih (t + 1) sumB (wB + ((0 : Nat) : ℚ)) maxVar (by omega) (by omega)
        (by rw [hwB]; simp)

/-- Claim C3: a non-empty raster whose pixels all share one intensity
`v` makes `otsu_threshold` return 0, the initialized default: every
candidate below `v` is skipped because `w_b = 0`, and the loop breaks
at bucket `v` because `w_f` becomes 0, so the initial threshold is
never replaced.  (The function is total, so no crash is possible.) -/
theorem otsu_uniform_zero (r : Raster) (v : Nat) (hv : v < 256)
    (huni : ∀ x y, x < r.width → y < r.height → r.pix x y = v)
    (hpos : 0 < r.width * r.height) :
    otsu_threshold r = 0 := by
  unfold otsu_threshold
  rw [if_neg (by omega)]
  rw [funext (histogram_uniform r v huni)]
  exact otsuGo_uniform (r.width * r.height) v hv hpos _ 256 0 0 0 (-1) rfl
    (Nat.zero_le v) rfl

/-- Witness for `otsu_uniform_zero` at a uniform 2×2 raster of
intensity 7. -/
theorem otsu_uniform_zero_witness :
    7 < 256 ∧
    0 < (Raster.mk 2 2 (fun _ _ => 7)).width * (Raster.mk 2 2 (fun _ _ => 7)).height ∧
    otsu_threshold (Raster.mk 2 2 (fun _ _ => 7)) = 0 :=
  ⟨by decide, by decide,
    otsu_uniform_zero (Raster.mk 2 2 (fun _ _ => 7)) 7 (by decide)
      (fun _ _ _ _ => rfl) (by decide)⟩

/-- With 8-bit pixels the histogram buckets partition the pixel grid, so
the cumulative count over all 256 buckets is the pixel count. -/
lemma histogram_total (r : Raster)
    (hpix : ∀ x y, x < r.width → y < r.height → r.pix x y ≤ 255) :
    wPre (histogram r) 256 = r.width * r.height := by
  have hcard : (Finset.range r.width ×ˢ Finset.range r.height).card =
      ∑ b ∈ Finset.range 256,
        ((Finset.range r.width ×ˢ Finset.range r.height).filter
          (fun p => r.pix p.1 p.2 = b)).card := by
    apply Finset.card_eq_sum_card_fiberwise
    intro p hp
    rw [Finset.mem_product, Finset.mem_range, Finset.mem_range] at hp
    rw [Finset.mem_range]
    have := hpix p.1 p.2 hp.1 hp.2
    omega
  unfold wPre histogram
  rw [← hcard, Finset.card_product, Finset.card_range, Finset.card_range]

/-- The between-class variance is nonnegative whenever the running
weight has not exceeded the pixel count: it is a product of two
nonnegative weights and a square. -/
lemma varFn_nonneg (hist : Nat → Nat) (total t : Nat)
    (h : wPre hist (t + 1) ≤ total) : 0 ≤ varFn hist total t := by
  unfold varFn varExpr
  set wB : ℚ := ((wPre hist (t + 1) : Nat) : ℚ) with hwB
  set wF : ℚ := (total : ℚ) - wB with hwF
  set d : ℚ := ((sPre hist (t + 1) : Nat) : ℚ) / wB -
    (sumTotalQ hist - ((sPre hist (t + 1) : Nat) : ℚ)) / wF with hd
  have h1 : (0 : ℚ) ≤ wB := Nat.cast_nonneg _
  have h2 : (0 : ℚ) ≤ wF := by
    rw [hwF]
    have hc : wB ≤ (total : ℚ) := by
      rw [hwB]
      exact_mod_cast h
    linarith
  have h3 : wB * wF * d * d = (wB * wF) * (d * d) := by ring
  rw [h3]
  exact mul_nonneg (mul_nonneg h1 h2) (mul_self_nonneg d)

/-- Loop invariant of the candidate search: starting at bucket `t` with
the running sums equal to the cumulative sums below `t`, no break having
occurred yet, and the running maximum/threshold recording the lowest
maximizer among the valid candidates below `t`, the loop returns a
candidate of maximal between-class variance, the lowest one in case of
a tie. -/
lemma otsuGo_spec (hist : Nat → Nat) (total : Nat)
    (htot : wPre hist 256 = total) :
    ∀ fuel t (sumB wB maxVar : ℚ) (thr : Nat), t + fuel = 256 →
      sumB = (sPre hist t : ℚ) → wB = (wPre hist t : ℚ) →
      wPre hist t < total →
      ((wPre hist t = 0 ∧ maxVar = -1 ∧ thr = 0) ∨
        (validCand hist total thr ∧ thr < t ∧ maxVar = varFn hist total thr ∧
          ∀ s, validCand hist total s → s < t →
            varFn hist total s ≤ maxVar ∧ (varFn hist total s = maxVar → thr ≤ s))) →
      (∀ s, validCand hist total s →
          varFn hist total s ≤
            varFn hist total (otsuGo hist total (sumTotalQ hist) fuel t sumB wB maxVar thr) ∧
          (varFn hist total s =
              varFn hist total (otsuGo hist total (sumTotalQ hist) fuel t sumB wB maxVar thr) →
            otsuGo hist total (sumTotalQ hist) fuel t sumB wB maxVar thr ≤ s)) ∧
      ((∃ s, validCand hist total s) →
        validCand hist total (otsuGo hist total (sumTotalQ hist) fuel t sumB wB maxVar thr)) := by
  intro fuel
  induction fuel with
  | zero =>
    intro t sumB wB maxVar thr hft hs hw hlt hinv
    exfalso
    have h256 : t = 256 := by omega
    rw [h256, htot] at hlt
    exact lt_irrefl total hlt
  | succ fuel ih =>
    intro t sumB wB maxVar thr hft hs hw hlt hinv
    have hw2 : wB + (hist t : ℚ) = (wPre hist (t + 1) : ℚ) := by
      rw [hw, wPre_succ]
      push_cast
      ring
    have hs2 : sumB + (t : ℚ) * (hist t : ℚ) = (sPre hist (t + 1) : ℚ) := by
      rw [hs, sPre_succ]
      push_cast
      ring
    simp only [otsuGo]
    by_cases hz : wPre hist (t + 1) = 0
    · have hc : wB + (hist t : ℚ) = 0 := by
        rw [hw2, hz]
        exact Nat.cast_zero
      rw [if_pos hc]
      have hsucc := wPre_succ hist t
      have hhz : hist t = 0 := by omega
      apply ih (t + 1) sumB (wB + (hist t : ℚ)) maxVar thr (by omega)
      · rw [hs, sPre_succ, hhz]
        push_cast
        ring
      · rw [hw2]
      · omega
      · left
        refine ⟨hz, ?_, ?_⟩
        · rcases hinv with ⟨h0, hm, ht0⟩ | ⟨⟨_, hp, _⟩, hthrt, _, _⟩
          · exact hm
          · exfalso
            have hmono := wPre_mono hist (show thr + 1 ≤ t + 1 by omega)
            omega
        · rcases hinv with ⟨h0, hm, ht0⟩ | ⟨⟨_, hp, _⟩, hthrt, _, _⟩
          · exact ht0
          · exfalso
            have hmono := wPre_mono hist (show thr + 1 ≤ t + 1 by omega)
            omega
    · have hznq : ¬ (wB + (hist t : ℚ) = 0) := by
        rw [hw2]
        exact_mod_cast hz
      rw [if_neg hznq]
      by_cases heq : wPre hist (t + 1) = total
      · have hf0 : (total : ℚ) - (wB + (hist t : ℚ)) = 0 := by
          rw [hw2, heq]
          ring
        rw [if_pos hf0]
        have hnoval : ∀ s, validCand hist total s → s < t := by
          intro s hvs
          by_contra hns
          have hmono := wPre_mono hist (show t + 1 ≤ s + 1 by omega)
          obtain ⟨_, _, hlt2⟩ := hvs
          omega
        rcases hinv with ⟨h0, hm, ht0⟩ | ⟨hvthr, hthrt, hmax, hall⟩
        · constructor
          · intro s hvs
            exfalso
            have hst := hnoval s hvs
            obtain ⟨_, hp, _⟩ := hvs
            have hmono := wPre_mono hist (show s + 1 ≤ t by omega)
            omega
          · intro hex
            obtain ⟨s, hvs⟩ := hex
            exfalso
            have hst := hnoval s hvs
            obtain ⟨_, hp, _⟩ := hvs
            have hmono := wPre_mono hist (show s + 1 ≤ t by omega)
            omega
        · constructor
          · intro s hvs
            obtain ⟨h1, h2⟩ := hall s hvs (hnoval s hvs)
            rw [hmax] at h1 h2
            exact ⟨h1, h2⟩
          · intro _
            exact hvthr
      · have hle : wPre hist (t + 1) ≤ total := by
          have hmono := wPre_mono hist (show t + 1 ≤ 256 by omega)
          omega
        have hlt2 : wPre hist (t + 1) < total := by omega
        have hfnq : ¬ ((total : ℚ) - (wB + (hist t : ℚ)) = 0) := by
          rw [hw2]
          intro hcc
          apply heq
          have hq : ((wPre hist (t + 1) : Nat) : ℚ) = (total : ℚ) := by linarith
          exact_mod_cast hq
        rw [if_neg hfnq]
        have hvarB : varExpr (sumTotalQ hist) total (sumB + (t : ℚ) * (hist t : ℚ))
            (wB + (hist t : ℚ)) = varFn hist total t := by
          unfold varFn
          rw [hw2, hs2]
        rw [hvarB]
        have hvt : validCand hist total t := ⟨by omega, by omega, hlt2⟩
        by_cases hcmp : maxVar < varFn hist total t
        · rw [if_pos hcmp]
          apply ih (t + 1) (sumB + (t : ℚ) * (hist t : ℚ)) (wB + (hist t : ℚ))
            (varFn hist total t) t (by omega) hs2 hw2 hlt2
          right
          refine ⟨hvt, by omega, rfl, ?_⟩
          intro s hvs hst1
          by_cases hst : s < t
          · rcases hinv with ⟨h0, hm, ht0⟩ | ⟨hvthr, hthrt, hmax, hall⟩
            · exfalso
              obtain ⟨_, hp, _⟩ := hvs
              have hmono := wPre_mono hist (show s + 1 ≤ t by omega)
              omega
            · obtain ⟨h1, h2⟩ := hall s hvs hst
              rw [hmax] at h1 hcmp
              constructor
              · exact le_of_lt (lt_of_le_of_lt h1 hcmp)
              · intro htie
                exact absurd htie (ne_of_lt (lt_of_le_of_lt h1 hcmp))
          · have hseq : s = t := by omega
            subst hseq
            exact ⟨le_refl _, fun _ => le_refl _⟩
        · rw [if_neg hcmp]
          have hmle : varFn hist total t ≤ maxVar := not_lt.mp hcmp
          rcases hinv with ⟨h0, hm, ht0⟩ | ⟨hvthr, hthrt, hmax, hall⟩
          · exfalso
            have hnn := varFn_nonneg hist total t hle
            rw [hm] at hmle
            linarith
          · apply ih (t + 1) (sumB + (t : ℚ) * (hist t : ℚ)) (wB + (hist t : ℚ))
              maxVar thr (by omega) hs2 hw2 hlt2
            right
            refine ⟨hvthr, by omega, hmax, ?_⟩
            intro s hvs hst1
            by_cases hst : s < t
            · exact hall s hvs hst
            · have hseq : s = t := by omega
              subst hseq
              exact ⟨hmle, fun _ => le_of_lt hthrt⟩

/-- Claim C4: the thresholder is deterministic — it is a function of the
histogram and of the pixel count alone, so any raster with the same
histogram gets the same byte — and among the candidates the loop
evaluates it returns one of maximal between-class variance, the lowest
such candidate in case of a tie, because the running maximum is
replaced only under strict greater-than comparison. -/
theorem otsu_deterministic_lowest_tie (r : Raster)
    (hpix : ∀ x y, x < r.width → y < r.height → r.pix x y ≤ 255) :
    (∀ r2 : Raster, r.width * r.height = r2.width * r2.height →
        (∀ i, histogram r i = histogram r2 i) →
        otsu_threshold r = otsu_threshold r2) ∧
    (∀ s, validCand (histogram r) (r.width * r.height) s →
        varFn (histogram r) (r.width * r.height) s ≤
          varFn (histogram r) (r.width * r.height) (otsu_threshold r) ∧
        (varFn (histogram r) (r.width * r.height) s =
            varFn (histogram r) (r.width * r.height) (otsu_threshold r) →
          otsu_threshold r ≤ s)) ∧
    ((∃ s, validCand (histogram r) (r.width * r.height) s) →
      validCand (histogram r) (r.width * r.height) (otsu_threshold r)) := by
  have hdet : ∀ r2 : Raster, r.width * r.height = r2.width * r2.height →
      (∀ i, histogram r i = histogram r2 i) →
      otsu_threshold r = otsu_threshold r2 := by
    intro r2 hwh hhist
    unfold otsu_threshold
    rw [funext hhist, hwh]
  refine ⟨hdet, ?_⟩
  by_cases h0 : r.width * r.height = 0
  · constructor
    · intro s hvs
      exfalso
      obtain ⟨_, _, hlt⟩ := hvs
      omega
    · intro hex
      obtain ⟨s, hvs⟩ := hex
      exfalso
      obtain ⟨_, _, hlt⟩ := hvs
      omega
  · have hcall : otsu_threshold r =
        otsuGo (histogram r) (r.width * r.height) (sumTotalQ (histogram r)) 256 0 0 0 (-1) 0 := by
      unfold otsu_threshold
      rw [if_neg h0]
    rw [hcall]
    exact otsuGo_spec (histogram r) (r.width * r.height) (histogram_total r hpix)
      256 0 0 0 (-1) 0 rfl (by simp [sPre]) (by simp [wPre])
      (by simp only [wPre, Finset.range_zero, Finset.sum_empty]; omega)
      (Or.inl ⟨by simp [wPre], rfl, rfl⟩)

/-- Witness for `otsu_deterministic_lowest_tie` at the two-tone raster,
whose candidate 0 is a valid split point. -/
theorem otsu_deterministic_lowest_tie_witness :
    validCand (histogram twoToneRaster) (twoToneRaster.width * twoToneRaster.height) 0 ∧
    varFn (histogram twoToneRaster) (twoToneRaster.width * twoToneRaster.height) 0 ≤
      varFn (histogram twoToneRaster) (twoToneRaster.width * twoToneRaster.height)
        (otsu_threshold twoToneRaster) :=
  ⟨by decide,
    ((otsu_deterministic_lowest_tie twoToneRaster
        (fun x y hx hy => by
          show (if x = 0 then 0 else 200) ≤ 255
          split <;> omega)).2.1 0 (by decide)).1⟩
